import Mathlib

/-!
Verification of the LingoFlow spaced-repetition core against its source.

The embedding translates the TypeScript source:
* `src/types.ts` — the `Flashcard` record and the `Difficulty` enum
  (AGAIN = 1, HARD = 2, GOOD = 3, EASY = 4; at runtime these are numbers,
  so ratings are embedded as integers);
* `src/services/srsService.ts` — `initializeCard` and `scheduleReview`;
* `src/App.tsx` — the dedup loop of `handleProcess` (lines 205-213) and the
  server-side `/api/cards/sync` bulk upsert (lines 692-717).

JavaScript numbers are modelled as exact integers (timestamps, day counts,
reps, state) and exact rationals (the intermediate interval arithmetic);
`Math.round` is modelled as `fun q => Int.floor (q + 1/2)`, which is its
ECMAScript definition.  `Date.now()` is passed in as an explicit `now`
parameter; `Math.random()`-generated identifiers are passed in explicitly.
-/

/-- The candidate word records produced by the external extraction pipeline
(word-level fields consumed by `initializeCard` via object spread). -/
structure CandidateWord where
  word : String
  pronunciation : String
  vietnameseMeaning : String
  context : String
  difficulty : String
  deriving DecidableEq, Repr

/-- The `Flashcard` record of `src/types.ts`.  The `difficulty` tier is the
string `"C1"` or `"C2"`; timestamps are epoch milliseconds. -/
structure Flashcard where
  id : String
  userId : String
  word : String
  pronunciation : String
  vietnameseMeaning : String
  context : String
  difficulty : String
  source : String
  createdAt : ℤ
  updatedAt : ℤ
  due : ℤ
  stability : ℚ
  difficultyRating : ℚ
  elapsedDays : ℤ
  scheduledDays : ℤ
  reps : ℤ
  state : ℤ
  deriving DecidableEq, Repr

/-- JavaScript `Math.round`: round to the nearest integer, halves toward
positive infinity (the ECMAScript definition is the floor of x + 1/2). -/
def jsRound (q : ℚ) : ℤ := Int.floor (q + 1/2)

/-- Milliseconds per day, as written in the source: 24 * 60 * 60 * 1000. -/
def msPerDay : ℤ := 24 * 60 * 60 * 1000

/-- `initializeCard` from `src/services/srsService.ts` lines 4-21: spreads the
candidate word, generates an identifier (passed explicitly here in place of
`Math.random().toString(36).substr(2, 9)`), and sets all scheduling state to
its initial values with `createdAt = updatedAt = due = now`. -/
def initializeCard (w : CandidateWord) (cardId : String) (source userId : String)
    (now : ℤ) : Flashcard :=
  { id := cardId
    userId := userId
    word := w.word
    pronunciation := w.pronunciation
    vietnameseMeaning := w.vietnameseMeaning
    context := w.context
    difficulty := w.difficulty
    source := source
    createdAt := now
    updatedAt := now
    due := now
    stability := 0
    difficultyRating := 0
    elapsedDays := 0
    scheduledDays := 0
    reps := 0
    state := 0 }

/-- The `days` variable of `scheduleReview` (srsService.ts lines 28-41): starts
at 1 and is reassigned per rating branch.  `card.scheduledDays || 1` is the
JavaScript falsy fallback, i.e. 1 when the prior value is 0.  The literals
1.2 and 2.5 are the rationals 6/5 and 5/2. -/
def reviewDays (S : ℚ) (rating : ℤ) : ℚ :=
  if rating = 1 then 0
  else if rating = 2 then max 1 (S * (6/5))
  else if rating = 3 then max 1 ((if S = 0 then 1 else S) * (5/2))
  else if rating = 4 then max 1 ((if S = 0 then 1 else S) * 4)
  else 1

/-- The `newCard.state` assignments of `scheduleReview` (srsService.ts lines
29-41): 3 (Relearning) on Again, 2 (Review) on Hard/Good/Easy, and untouched
on any other rating value (no branch assigns it). -/
def reviewState (oldState : ℤ) (rating : ℤ) : ℤ :=
  if rating = 1 then 3
  else if rating = 2 then 2
  else if rating = 3 then 2
  else if rating = 4 then 2
  else oldState

/-- `scheduleReview` from `src/services/srsService.ts` lines 23-47: copies the
card, increments `reps`, stamps `updatedAt`, selects interval and state by
rating, rounds the interval into `scheduledDays` and sets
`due = now + scheduledDays * 24*60*60*1000`.  The source reads `Date.now()`
twice (lines 26 and 44); both reads are modelled by the single `now`
parameter.  The source body contains no throw: the function is total. -/
def scheduleReview (card : Flashcard) (rating : ℤ) (now : ℤ) : Flashcard :=
  { card with
    reps := card.reps + 1
    updatedAt := now
    state := reviewState card.state rating
    scheduledDays := jsRound (reviewDays (card.scheduledDays : ℚ) rating)
    due := now + jsRound (reviewDays (card.scheduledDays : ℚ) rating) * msPerDay }

/-- A concrete card used to instantiate hypotheses of the proved theorems. -/
def testCard : Flashcard :=
  { id := "a"
    userId := "u"
    word := "word"
    pronunciation := "p"
    vietnameseMeaning := "m"
    context := "ctx"
    difficulty := "C1"
    source := "s"
    createdAt := 0
    updatedAt := 0
    due := 0
    stability := 0
    difficultyRating := 0
    elapsedDays := 0
    scheduledDays := 0
    reps := 0
    state := 0 }

/-- Out-of-range ratings hit no branch of the if chain: `days` keeps its
initial value 1 and `state` is never reassigned, so the returned card is the
input with `reps` incremented, `updatedAt := now`, `scheduledDays := 1` and
`due := now + 1 day`.  Shared helper for the error-handling claims. -/
theorem scheduleReview_default (card : Flashcard) (rating now : ℤ)
    (h1 : rating ≠ 1) (h2 : rating ≠ 2) (h3 : rating ≠ 3) (h4 : rating ≠ 4) :
    scheduleReview card rating now =
      { card with
        reps := card.reps + 1
        updatedAt := now
        scheduledDays := 1
        due := now + msPerDay } := by
  have hdays : reviewDays (card.scheduledDays : ℚ) rating = 1 := by
    simp [reviewDays, h1, h2, h3, h4]
  have hstate : reviewState card.state rating = card.state := by
    simp [reviewState, h1, h2, h3, h4]
  have hround : jsRound (1 : ℚ) = 1 := by
    norm_num [jsRound]
  simp [scheduleReview, hdays, hstate, hround]

/-- Claim C1: for every flashcard, rating Again (1) yields state Relearning
(3), scheduledDays 0 and due = now; Hard (2) yields state Review (2) and
scheduledDays round(max(1, S * 1.2)); Good (3) yields state Review and
scheduledDays round(max(1, (S if S nonzero else 1) * 2.5)) — in particular 3
from S = 0; Easy (4) yields state Review and
scheduledDays round(max(1, (S if S nonzero else 1) * 4)); and for every
rating the new due equals now plus the new scheduledDays in days. -/
theorem scheduleReview_transition_table (card : Flashcard) (now : ℤ) :
    ((scheduleReview card 1 now).state = 3 ∧
     (scheduleReview card 1 now).scheduledDays = 0 ∧
     (scheduleReview card 1 now).due = now) ∧
    ((scheduleReview card 2 now).state = 2 ∧
     (scheduleReview card 2 now).scheduledDays =
       jsRound (max 1 ((card.scheduledDays : ℚ) * (6/5)))) ∧
    ((scheduleReview card 3 now).state = 2 ∧
     (scheduleReview card 3 now).scheduledDays =
       jsRound (max 1 ((if (card.scheduledDays : ℚ) = 0 then 1
         else (card.scheduledDays : ℚ)) * (5/2)))) ∧
    (card.scheduledDays = 0 → (scheduleReview card 3 now).scheduledDays = 3) ∧
    ((scheduleReview card 4 now).state = 2 ∧
     (scheduleReview card 4 now).scheduledDays =
       jsRound (max 1 ((if (card.scheduledDays : ℚ) = 0 then 1
         else (card.scheduledDays : ℚ)) * 4))) ∧
    (∀ rating : ℤ, (scheduleReview card rating now).due =
       now + (scheduleReview card rating now).scheduledDays * msPerDay) := by
  refine ⟨⟨?_, ?_, ?_⟩, ⟨?_, ?_⟩, ⟨?_, ?_⟩, ?_, ⟨?_, ?_⟩, ?_⟩
  · simp [scheduleReview, reviewState]
  · norm_num [scheduleReview, reviewDays, jsRound]
  · norm_num [scheduleReview, reviewDays, jsRound, msPerDay]
  · simp [scheduleReview, reviewState]
  · norm_num [scheduleReview, reviewDays]
  · simp [scheduleReview, reviewState]
  · norm_num [scheduleReview, reviewDays]
  · intro h
    have hq : (card.scheduledDays : ℚ) = 0 := by exact_mod_cast h
    norm_num [scheduleReview, reviewDays, hq, jsRound]
  · simp [scheduleReview, reviewState]
  · norm_num [scheduleReview, reviewDays]
  · intro rating
    simp [scheduleReview]

/-- Instance of the hypothesised conjunct of `scheduleReview_transition_table`:
from scheduledDays 0, rating Good produces scheduledDays 3. -/
theorem scheduleReview_transition_table_inst :
    (scheduleReview testCard 3 100).scheduledDays = 3 :=
  (scheduleReview_transition_table testCard 100).2.2.2.1 rfl

/-- Claim C5: `scheduleReview` increments `reps` by exactly one for every
card and every rating value (the increment precedes the rating branches and
is unconditional). -/
theorem scheduleReview_reps_increment (card : Flashcard) (rating now : ℤ) :
    (scheduleReview card rating now).reps = card.reps + 1 := rfl

/-- Claim C8: `scheduleReview` carries every field other than state,
scheduledDays, due, reps and updatedAt over unchanged: identity, content,
createdAt, and the reserved stability, difficultyRating and elapsedDays. -/
theorem scheduleReview_frame (card : Flashcard) (rating now : ℤ) :
    (scheduleReview card rating now).id = card.id ∧
    (scheduleReview card rating now).userId = card.userId ∧
    (scheduleReview card rating now).word = card.word ∧
    (scheduleReview card rating now).pronunciation = card.pronunciation ∧
    (scheduleReview card rating now).vietnameseMeaning = card.vietnameseMeaning ∧
    (scheduleReview card rating now).context = card.context ∧
    (scheduleReview card rating now).difficulty = card.difficulty ∧
    (scheduleReview card rating now).source = card.source ∧
    (scheduleReview card rating now).createdAt = card.createdAt ∧
    (scheduleReview card rating now).stability = card.stability ∧
    (scheduleReview card rating now).difficultyRating = card.difficultyRating ∧
    (scheduleReview card rating now).elapsedDays = card.elapsedDays :=
  ⟨rfl, rfl, rfl, rfl, rfl, rfl, rfl, rfl, rfl, rfl, rfl, rfl⟩

/-- Claim C9: for a rating outside the four defined grades the source's
`scheduleReview` returns normally (it is a total function with no throw): the
result has reps incremented by one, state unchanged, scheduledDays 1 and due
equal to now plus one day. -/
theorem scheduleReview_default_branch (card : Flashcard) (rating now : ℤ)
    (h1 : rating ≠ 1) (h2 : rating ≠ 2) (h3 : rating ≠ 3) (h4 : rating ≠ 4) :
    (scheduleReview card rating now).reps = card.reps + 1 ∧
    (scheduleReview card rating now).state = card.state ∧
    (scheduleReview card rating now).scheduledDays = 1 ∧
    (scheduleReview card rating now).due = now + msPerDay := by
  rw [scheduleReview_default card rating now h1 h2 h3 h4]
  exact ⟨rfl, rfl, rfl, rfl⟩

/-- Instance of `scheduleReview_default_branch` at the out-of-range rating 7. -/
theorem scheduleReview_default_branch_inst :
    (scheduleReview testCard 7 100).reps = testCard.reps + 1 ∧
    (scheduleReview testCard 7 100).state = testCard.state ∧
    (scheduleReview testCard 7 100).scheduledDays = 1 ∧
    (scheduleReview testCard 7 100).due = 100 + msPerDay :=
  scheduleReview_default_branch testCard 7 100
    (by decide) (by decide) (by decide) (by decide)

/-- Claim C3 counterexample: the claim says a call with an out-of-range
rating fails with an error surfaced to the caller and is never silently
coerced; at rating 0 the source instead returns a normal flashcard with the
silently coerced default one-day schedule. -/
theorem review_invalid_rating_no_error_cex :
    scheduleReview testCard 0 100 =
      { testCard with
        reps := testCard.reps + 1
        updatedAt := 100
        scheduledDays := 1
        due := 100 + msPerDay } :=
  scheduleReview_default testCard 0 100
    (by decide) (by decide) (by decide) (by decide)

/-- Claim C3 amended: `review` has no failure mode at all; for every rating
outside the four defined grades it returns normally, silently coercing the
schedule to the default one-day interval with the lifecycle state unchanged
(in-range ratings also always succeed, `scheduleReview` being total). -/
theorem review_invalid_rating_silent_default (card : Flashcard) (rating now : ℤ)
    (h1 : rating ≠ 1) (h2 : rating ≠ 2) (h3 : rating ≠ 3) (h4 : rating ≠ 4) :
    scheduleReview card rating now =
      { card with
        reps := card.reps + 1
        updatedAt := now
        scheduledDays := 1
        due := now + msPerDay } :=
  scheduleReview_default card rating now h1 h2 h3 h4

/-- Instance of `review_invalid_rating_silent_default` at rating 5. -/
theorem review_invalid_rating_silent_default_inst :
    scheduleReview testCard 5 100 =
      { testCard with
        reps := testCard.reps + 1
        updatedAt := 100
        scheduledDays := 1
        due := 100 + msPerDay } :=
  review_invalid_rating_silent_default testCard 5 100
    (by decide) (by decide) (by decide) (by decide)

/-- Every branch of the interval computation is nonnegative: 0 on Again,
at least 1 via the max on Hard/Good/Easy, and 1 by default. -/
theorem reviewDays_nonneg (S : ℚ) (rating : ℤ) : 0 ≤ reviewDays S rating := by
  unfold reviewDays
  split_ifs <;> norm_num

/-- Rounding a nonnegative rational with jsRound stays nonnegative. -/
theorem jsRound_nonneg {q : ℚ} (h : 0 ≤ q) : 0 ≤ jsRound q := by
  unfold jsRound
  exact Int.le_floor.mpr (by push_cast; linarith)

/-- Claim C6: initialization establishes due = createdAt = now, and
`scheduleReview` preserves createdAt ≤ due whenever the review time is at or
after the card's creation time (the new due is now plus a nonnegative number
of days while createdAt is carried over). -/
theorem due_ge_createdAt_invariant :
    (∀ (w : CandidateWord) (cardId source userId : String) (now : ℤ),
       (initializeCard w cardId source userId now).due = now ∧
       (initializeCard w cardId source userId now).createdAt = now) ∧
    (∀ (card : Flashcard) (rating now : ℤ), card.createdAt ≤ now →
       (scheduleReview card rating now).createdAt ≤
         (scheduleReview card rating now).due) := by
  constructor
  · intro w cardId source userId now
    exact ⟨rfl, rfl⟩
  · intro card rating now h
    have hsd : 0 ≤ jsRound (reviewDays (card.scheduledDays : ℚ) rating) :=
      jsRound_nonneg (reviewDays_nonneg _ _)
    have hms : (0 : ℤ) ≤ msPerDay := by norm_num [msPerDay]
    have hdue : (scheduleReview card rating now).due =
        now + jsRound (reviewDays (card.scheduledDays : ℚ) rating) * msPerDay := rfl
    have hcr : (scheduleReview card rating now).createdAt = card.createdAt := rfl
    rw [hdue, hcr]
    nlinarith

/-- Instance of the preservation conjunct of `due_ge_createdAt_invariant` at a
concrete card and review time. -/
theorem due_ge_createdAt_invariant_inst :
    (scheduleReview testCard 3 100).createdAt ≤ (scheduleReview testCard 3 100).due :=
  due_ge_createdAt_invariant.2 testCard 3 100 (by decide)

/-- The dedup loop of `handleProcess` (src/App.tsx lines 205-213): walk the
freshly initialized cards, and push a card onto both the merged working set
and the accepted (`added`) list only when no card already in the working set
has the same lowercased word.  Returns the pair (merged, added). -/
def acceptLoop (merged added : List Flashcard) :
    List Flashcard → List Flashcard × List Flashcard
  | [] => (merged, added)
  | c :: rest =>
    if merged.any (fun x => x.word.toLower == c.word.toLower) then
      acceptLoop merged added rest
    else
      acceptLoop (merged ++ [c]) (added ++ [c]) rest

/-- `acceptCandidates`: the loop started on the existing card set with an
empty accepted list, as `handleProcess` does. -/
def acceptCandidates (existing newCards : List Flashcard) :
    List Flashcard × List Flashcard :=
  acceptLoop existing [] newCards

/-- Invariant carried through `acceptLoop`: if everything in `existing` and
in `added` lies in the working set, the accepted list has pairwise distinct
lowercased words, and the accepted words avoid those of `existing`, then both
dedup guarantees hold of the final accepted list. -/
theorem acceptLoop_spec (existing : List Flashcard) :
    ∀ (rest merged added : List Flashcard),
    (∀ e ∈ existing, e ∈ merged) →
    (∀ a ∈ added, a ∈ merged) →
    added.Pairwise (fun a b => a.word.toLower ≠ b.word.toLower) →
    (∀ a ∈ added, ∀ e ∈ existing, a.word.toLower ≠ e.word.toLower) →
    (acceptLoop merged added rest).2.Pairwise
      (fun a b => a.word.toLower ≠ b.word.toLower) ∧
    (∀ a ∈ (acceptLoop merged added rest).2, ∀ e ∈ existing,
       a.word.toLower ≠ e.word.toLower) := by
  intro rest
  induction rest with
  | nil =>
    intro merged added _ _ h3 h4
    exact ⟨h3, h4⟩
  | cons c rest ih =>
    intro merged added h1 h2 h3 h4
    by_cases hc : merged.any (fun x => x.word.toLower == c.word.toLower) = true
    · rw [acceptLoop, if_pos hc]
      exact ih merged added h1 h2 h3 h4
    · rw [acceptLoop, if_neg hc]
      have hno : ∀ x ∈ merged, x.word.toLower ≠ c.word.toLower := by
        intro x hx
        by_contra heq
        exact hc (List.any_eq_true.mpr ⟨x, hx, by simp [heq]⟩)
      refine ih (merged ++ [c]) (added ++ [c]) ?_ ?_ ?_ ?_
      · intro e he
        exact List.mem_append_left _ (h1 e he)
      · intro a ha
        rcases List.mem_append.mp ha with ha' | ha'
        · exact List.mem_append_left _ (h2 a ha')
        · exact List.mem_append_right _ ha'
      · rw [List.pairwise_append]
        refine ⟨h3, List.pairwise_singleton _ _, ?_⟩
        intro a ha b hb
        rw [List.mem_singleton] at hb
        subst hb
        exact hno a (h2 a ha)
      · intro a ha e he
        rcases List.mem_append.mp ha with ha' | ha'
        · exact h4 a ha' e he
        · rw [List.mem_singleton] at ha'
          subst ha'
          exact (hno e (h1 e he)).symm

/-- Claim C4: the accepted list returned by `acceptCandidates` contains no
two entries whose words are equal under case-insensitive (lowercased)
comparison, and no accepted entry's word collides case-insensitively with the
word of any card in the existing set. -/
theorem acceptCandidates_dedup (existing newCards : List Flashcard) :
    (acceptCandidates existing newCards).2.Pairwise
      (fun a b => a.word.toLower ≠ b.word.toLower) ∧
    (∀ a ∈ (acceptCandidates existing newCards).2, ∀ e ∈ existing,
       a.word.toLower ≠ e.word.toLower) := by
  exact acceptLoop_spec existing newCards existing []
    (fun e he => he) (by simp) (by simp) (by simp)

/-- The row written by the sync endpoint for a submitted card: every column
comes from the submitted record except `userId`, which the endpoint takes
from the authenticated request (`insert.run(card.id, req.user.id, ...)`,
src/App.tsx line 707). -/
def setUser (uid : String) (c : Flashcard) : Flashcard :=
  { c with userId := uid }

/-- SQLite `INSERT OR REPLACE` on the `flashcards` table, whose sole primary
key is `id`: if a row with the same id exists it is replaced, otherwise the
row is appended.  The table is modelled as a list of rows. -/
def upsertRow (store : List Flashcard) (c : Flashcard) : List Flashcard :=
  if store.any (fun r => r.id == c.id) then
    store.map (fun r => if r.id = c.id then c else r)
  else store ++ [c]

/-- The `/api/cards/sync` endpoint (src/App.tsx lines 692-717): for each
submitted card, in order, insert-or-replace the row keyed by the card's id,
with the `userId` column forced to the authenticated user's id.  There is no
comparison of `updatedAt` anywhere in the endpoint. -/
def syncCards (uid : String) (cards : List Flashcard) (store : List Flashcard) :
    List Flashcard :=
  cards.foldl (fun st c => upsertRow st (setUser uid c)) store

/-- The stored card of the C2 scenario: device A's reviewed copy of card "x"
with updatedAt 150. -/
def deviceACard : Flashcard :=
  { testCard with id := "x", updatedAt := 150 }

/-- The incoming card of the C2 scenario: device B's stale copy of card "x"
with updatedAt 100. -/
def staleCard : Flashcard :=
  { testCard with id := "x", updatedAt := 100 }

/-- Claim C2 fails on the code: the sync endpoint replaces the stored row
unconditionally, so device B's stale copy (updatedAt 100) overwrites device
A's newer stored copy (updatedAt 150) even though its updatedAt is strictly
smaller.  The resulting store holds only the stale record. -/
theorem syncCards_stale_replaces_newer :
    syncCards "u" [staleCard] [deviceACard] = [staleCard] ∧
    staleCard.updatedAt < deviceACard.updatedAt := by
  constructor
  · rfl
  · decide

/-- Two flashcards that agree on every field except possibly `userId`. -/
def eqExceptUser (c d : Flashcard) : Prop :=
  { c with userId := d.userId } = d

/-- Forcing the authenticated user id erases any difference confined to the
`userId` field. -/
theorem setUser_eqExceptUser {c d : Flashcard} (u : String)
    (h : eqExceptUser c d) : setUser u c = setUser u d := by
  rw [← h]
  rfl

/-- Stores reached by syncing pointwise-`eqExceptUser` batches coincide. -/
theorem syncCards_userId_irrelevant (u : String) :
    ∀ {cards₁ cards₂ : List Flashcard},
    List.Forall₂ eqExceptUser cards₁ cards₂ →
    ∀ store : List Flashcard, syncCards u cards₁ store = syncCards u cards₂ store := by
  intro cards₁ cards₂ h
  induction h with
  | nil => intro store; rfl
  | cons hcd htail ih =>
    intro store
    show syncCards u _ (upsertRow store (setUser u _)) =
      syncCards u _ (upsertRow store (setUser u _))
    rw [setUser_eqExceptUser u hcd]
    exact ih _

/-- Membership in an upserted store comes from the old store or is the
upserted row itself. -/
theorem mem_upsertRow {r : Flashcard} {store : List Flashcard} {c : Flashcard}
    (h : r ∈ upsertRow store c) : r ∈ store ∨ r = c := by
  unfold upsertRow at h
  split at h
  · rcases List.mem_map.mp h with ⟨x, hx, hr⟩
    by_cases hid : x.id = c.id
    · right; rw [← hr, if_pos hid]
    · left; rw [← hr, if_neg hid]; exact hx
  · rcases List.mem_append.mp h with hx | hx
    · left; exact hx
    · right; exact List.mem_singleton.mp hx

/-- Every row of a synced store is either a row of the original store or a
row written by the sync; written rows carry the authenticated user's id. -/
theorem syncCards_provenance (u : String) :
    ∀ (cards store : List Flashcard) (r : Flashcard),
    r ∈ syncCards u cards store → r ∈ store ∨ r.userId = u := by
  intro cards
  induction cards with
  | nil => intro store r h; exact Or.inl h
  | cons c rest ih =>
    intro store r h
    rcases ih (upsertRow store (setUser u c)) r h with h' | h'
    · rcases mem_upsertRow h' with h'' | h''
      · exact Or.inl h''
      · right; rw [h'']; rfl
    · exact Or.inr h'

/-- Claim C10: the stored state produced by the sync endpoint does not depend
on the `userId` fields of the submitted records — two syncs by the same
authenticated user whose batches differ only in those fields produce
identical stores — and every row a sync writes carries the authenticated
user's id, so no sync ever creates or overwrites a record under another
user's identity. -/
theorem sync_userId_independence :
    (∀ (u : String) (cards₁ cards₂ store : List Flashcard),
       List.Forall₂ eqExceptUser cards₁ cards₂ →
       syncCards u cards₁ store = syncCards u cards₂ store) ∧
    (∀ (u : String) (cards store : List Flashcard) (r : Flashcard),
       r ∈ syncCards u cards store → r ∈ store ∨ r.userId = u) :=
  ⟨fun u _ _ store h => syncCards_userId_irrelevant u h store,
   fun u cards store r h => syncCards_provenance u cards store r h⟩

/-- Instance of `sync_userId_independence`: a batch whose sole card has a
forged foreign `userId` produces the same store as the honest batch, and the
single written row carries the authenticated id. -/
theorem sync_userId_independence_inst :
    syncCards "u" [testCard] [] =
      syncCards "u" [{ testCard with userId := "other" }] [] ∧
    (setUser "u" testCard ∈ ([] : List Flashcard) ∨
      (setUser "u" testCard).userId = "u") := by
  constructor
  · exact sync_userId_independence.1 "u" _ _ []
      (List.Forall₂.cons rfl List.Forall₂.nil)
  · exact sync_userId_independence.2 "u" [testCard] [] (setUser "u" testCard)
      (by simp [syncCards, upsertRow, setUser])

/-- A store contains an id exactly when some row carries it. -/
theorem any_id_iff (store : List Flashcard) (i : String) :
    store.any (fun r => r.id == i) = true ↔ ∃ r ∈ store, r.id = i := by
  simp [List.any_eq_true]

/-- Modelled from the spec: the repository has no standalone pure merge
function (reconciliation in the source is the sync endpoint's blind upsert,
`syncCards` above); this definition follows spec section 4.1.  For one
incoming card: if a card with the same identifier exists in the accumulated
set, keep whichever of the two has the greater updatedAt (ties keep the
local copy); otherwise append the incoming card. -/
def mergeOne (acc : List Flashcard) (c : Flashcard) : List Flashcard :=
  if acc.any (fun r => r.id == c.id) then
    acc.map (fun r => if r.id = c.id then
      (if r.updatedAt < c.updatedAt then c else r) else r)
  else acc ++ [c]

/-- Modelled from the spec: merge of a local card set with an incoming card
set, folding the incoming cards into the local set in order, so the result
is the local set (entrywise reconciled) followed by the genuinely new
incoming entries. -/
def merge (localCards incoming : List Flashcard) : List Flashcard :=
  incoming.foldl mergeOne localCards

theorem mergeOne_found {acc : List Flashcard} {c : Flashcard}
    (h : ∃ r ∈ acc, r.id = c.id) :
    mergeOne acc c = acc.map (fun r => if r.id = c.id then
      (if r.updatedAt < c.updatedAt then c else r) else r) := by
  unfold mergeOne
  rw [if_pos ((any_id_iff acc c.id).mpr h)]

theorem mergeOne_notFound {acc : List Flashcard} {c : Flashcard}
    (h : ∀ r ∈ acc, r.id ≠ c.id) : mergeOne acc c = acc ++ [c] := by
  unfold mergeOne
  rw [if_neg]
  intro hc
  rcases (any_id_iff acc c.id).mp hc with ⟨r, hr, hid⟩
  exact h r hr hid

/-- Relation between a local entry and the merged entry at its position:
same identifier, and the merged entry is the local one or strictly newer. -/
def dom (a w : Flashcard) : Prop :=
  w.id = a.id ∧ (w = a ∨ a.updatedAt < w.updatedAt)

theorem dom_refl (a : Flashcard) : dom a a := ⟨rfl, Or.inl rfl⟩

theorem dom_updatedAt_le {a w : Flashcard} (h : dom a w) :
    a.updatedAt ≤ w.updatedAt := by
  rcases h.2 with rfl | h'
  · exact le_refl _
  · exact le_of_lt h'

/-- The last-write-wins choice between a local entry and an entry dominating
it always returns the dominating entry (ties keep the local copy, but a
dominating tie is the local copy itself). -/
theorem winner_of_dom {a w : Flashcard} (h : dom a w) :
    (if a.updatedAt < w.updatedAt then w else a) = w := by
  rcases h.2 with rfl | h'
  · simp
  · rw [if_pos h']

/-- Reconciling a dominating entry against a further incoming card preserves
domination. -/
theorem dom_write {a w c : Flashcard} (h : dom a w) :
    dom a (if w.id = c.id then
      (if w.updatedAt < c.updatedAt then c else w) else w) := by
  by_cases h1 : w.id = c.id
  · rw [if_pos h1]
    by_cases h2 : w.updatedAt < c.updatedAt
    · rw [if_pos h2]
      refine ⟨by rw [← h1]; exact h.1, Or.inr ?_⟩
      exact lt_of_le_of_lt (dom_updatedAt_le h) h2
    · rw [if_neg h2]; exact h
  · rw [if_neg h1]; exact h

/-- The reconciliation step never changes a row's identifier. -/
theorem write_id (r c : Flashcard) :
    (if r.id = c.id then
      (if r.updatedAt < c.updatedAt then c else r) else r).id = r.id := by
  by_cases h1 : r.id = c.id
  · rw [if_pos h1]
    by_cases h2 : r.updatedAt < c.updatedAt
    · rw [if_pos h2, h1]
    · rw [if_neg h2]
  · rw [if_neg h1]

theorem forall₂_dom_map {A W : List Flashcard} (c : Flashcard)
    (h : List.Forall₂ dom A W) :
    List.Forall₂ dom A (W.map (fun r => if r.id = c.id then
      (if r.updatedAt < c.updatedAt then c else r) else r)) := by
  induction h with
  | nil => exact List.Forall₂.nil
  | cons h1 h2 ih => exact List.Forall₂.cons (dom_write h1) ih

theorem forall₂_dom_mem_right {A W : List Flashcard}
    (h : List.Forall₂ dom A W) : ∀ w ∈ W, ∃ a ∈ A, dom a w := by
  induction h with
  | nil => intro w hw; cases hw
  | cons h1 h2 ih =>
    intro w hw
    rcases List.mem_cons.mp hw with rfl | hw'
    · exact ⟨_, List.mem_cons_self _ _, h1⟩
    · rcases ih w hw' with ⟨a, ha, hd⟩
      exact ⟨a, List.mem_cons_of_mem _ ha, hd⟩

theorem forall₂_dom_mem_left {A W : List Flashcard}
    (h : List.Forall₂ dom A W) : ∀ a ∈ A, ∃ w ∈ W, dom a w := by
  induction h with
  | nil => intro a ha; cases ha
  | cons h1 h2 ih =>
    intro a ha
    rcases List.mem_cons.mp ha with rfl | ha'
    · exact ⟨_, List.mem_cons_self _ _, h1⟩
    · rcases ih a ha' with ⟨w, hw, hd⟩
      exact ⟨w, List.mem_cons_of_mem _ hw, hd⟩

theorem map_write_ids (N : List Flashcard) (c : Flashcard) :
    (N.map (fun r => if r.id = c.id then
      (if r.updatedAt < c.updatedAt then c else r) else r)).map (fun r => r.id)
      = N.map (fun r => r.id) := by
  rw [List.map_map]
  exact List.map_congr_left (fun r _ => write_id r c)

/-- Shape of any store reachable by merging an incoming batch into the local
set A: an entrywise-dominating image of A followed by genuinely new entries
whose identifiers avoid A and are pairwise distinct. -/
def MergedFrom (A C : List Flashcard) : Prop :=
  ∃ W N, C = W ++ N ∧ List.Forall₂ dom A W ∧
    (∀ n ∈ N, ∀ a ∈ A, n.id ≠ a.id) ∧ (N.map (fun r => r.id)).Nodup

theorem mergedFrom_self (A : List Flashcard) : MergedFrom A A :=
  ⟨A, [], by simp, List.forall₂_same.mpr (fun x _ => dom_refl x),
    by simp, by simp⟩

theorem mergedFrom_mergeOne {A acc : List Flashcard} (c : Flashcard)
    (h : MergedFrom A acc) : MergedFrom A (mergeOne acc c) := by
  rcases h with ⟨W, N, rfl, hW, hN, hNd⟩
  by_cases hf : ∃ r ∈ W ++ N, r.id = c.id
  · rw [mergeOne_found hf, List.map_append]
    refine ⟨_, _, rfl, forall₂_dom_map c hW, ?_, ?_⟩
    · intro n hn a ha
      rcases List.mem_map.mp hn with ⟨n0, hn0, rfl⟩
      rw [write_id]
      exact hN n0 hn0 a ha
    · rw [map_write_ids]
      exact hNd
  · push_neg at hf
    rw [mergeOne_notFound hf, List.append_assoc]
    refine ⟨W, N ++ [c], rfl, hW, ?_, ?_⟩
    · intro n hn a ha
      rcases List.mem_append.mp hn with hn' | hn'
      · exact hN n hn' a ha
      · rw [List.mem_singleton] at hn'
        subst hn'
        rcases forall₂_dom_mem_left hW a ha with ⟨w, hw, hd⟩
        rw [← hd.1]
        exact (hf w (List.mem_append_left _ hw)).symm
    · rw [List.map_append, List.nodup_append]
      refine ⟨hNd, List.nodup_singleton _, ?_⟩
      intro x hx hx'
      rcases List.mem_map.mp hx with ⟨n, hn, rfl⟩
      rw [List.map_singleton, List.mem_singleton] at hx'
      exact hf n (List.mem_append_right _ hn) hx'

theorem mergedFrom_foldl {A : List Flashcard} :
    ∀ (B acc : List Flashcard), MergedFrom A acc →
    MergedFrom A (List.foldl mergeOne acc B) := by
  intro B
  induction B with
  | nil => intro acc h; exact h
  | cons b B ih => intro acc h; exact ih _ (mergedFrom_mergeOne b h)

/-- Replaying an entrywise-dominating image of the local suffix back into the
store leaves each dominated row overwritten by its dominating version and
nothing else changed: the dominated suffix becomes the dominating one. -/
theorem foldl_dom {A W : List Flashcard} (h : List.Forall₂ dom A W) :
    ∀ P : List Flashcard, (((P ++ A).map (fun r => r.id)).Nodup) →
    List.foldl mergeOne (P ++ A) W = P ++ W := by
  induction h with
  | nil => intro P _; simp
  | @cons a w A' W' h1 h2 ih =>
    intro P hnd0
    have hw_id : w.id = a.id := h1.1
    have hnd := hnd0
    rw [List.map_append, List.nodup_append] at hnd
    obtain ⟨hndP, hndA, hdisj⟩ := hnd
    rw [List.map_cons, List.nodup_cons] at hndA
    obtain ⟨haA', hndA'⟩ := hndA
    have hPne : ∀ p ∈ P, p.id ≠ a.id := by
      intro p hp heq
      exact hdisj (List.mem_map.mpr ⟨p, hp, rfl⟩)
        (by rw [List.map_cons, ← heq]; exact List.mem_cons_self _ _)
    have hA'ne : ∀ x ∈ A', x.id ≠ a.id := by
      intro x hx heq
      exact haA' (by rw [← heq]; exact List.mem_map.mpr ⟨x, hx, rfl⟩)
    have hstep : mergeOne (P ++ a :: A') w = P ++ w :: A' := by
      rw [mergeOne_found ⟨a, by simp, hw_id.symm⟩, List.map_append]
      congr 1
      · have hpt : ∀ p ∈ P, (if p.id = w.id then
            (if p.updatedAt < w.updatedAt then w else p) else p) = p := by
          intro p hp
          rw [if_neg (fun hpe => hPne p hp (hpe.trans hw_id))]
        rw [List.map_congr_left hpt, List.map_id']
      · rw [List.map_cons]
        congr 1
        · rw [if_pos hw_id.symm]
          exact winner_of_dom h1
        · have hpt : ∀ x ∈ A', (if x.id = w.id then
              (if x.updatedAt < w.updatedAt then w else x) else x) = x := by
            intro x hx
            rw [if_neg (fun hxe => hA'ne x hx (hxe.trans hw_id))]
          rw [List.map_congr_left hpt, List.map_id']
    have hnodup2 : (((P ++ [w]) ++ A').map (fun r => r.id)).Nodup := by
      have hids : ((P ++ [w]) ++ A').map (fun r => r.id)
          = (P ++ a :: A').map (fun r => r.id) := by
        simp [hw_id]
      rw [hids]
      exact hnd0
    calc List.foldl mergeOne (P ++ a :: A') (w :: W')
        = List.foldl mergeOne ((P ++ [w]) ++ A') W' := by
          rw [List.foldl_cons, hstep]
          congr 1
          simp
      _ = (P ++ [w]) ++ W' := ih (P ++ [w]) hnodup2
      _ = P ++ w :: W' := by simp

/-- Folding a batch of genuinely new entries (identifiers absent from the
store and pairwise distinct) appends them in order. -/
theorem foldl_new :
    ∀ (N acc : List Flashcard), (∀ n ∈ N, ∀ r ∈ acc, n.id ≠ r.id) →
    ((N.map (fun r => r.id)).Nodup) →
    List.foldl mergeOne acc N = acc ++ N := by
  intro N
  induction N with
  | nil => intro acc _ _; simp
  | cons n N ih =>
    intro acc hdisj hnd
    rw [List.map_cons, List.nodup_cons] at hnd
    obtain ⟨hn_notin, hndN⟩ := hnd
    rw [List.foldl_cons,
      mergeOne_notFound (fun r hr => (hdisj n (List.mem_cons_self _ _) r hr).symm)]
    have hrec : List.foldl mergeOne (acc ++ [n]) N = (acc ++ [n]) ++ N := by
      apply ih
      · intro m hm r hr
        rcases List.mem_append.mp hr with hr' | hr'
        · exact hdisj m (List.mem_cons_of_mem _ hm) r hr'
        · rw [List.mem_singleton] at hr'
          subst hr'
          intro heq
          exact hn_notin (by rw [← heq]; exact List.mem_map.mpr ⟨m, hm, rfl⟩)
      · exact hndN
    rw [hrec]
    simp

/-- Merging any store of `MergedFrom A` shape back into A reproduces that
store exactly, provided the local identifiers are distinct. -/
theorem merge_absorb {A C : List Flashcard}
    (hA : ((A.map (fun r => r.id)).Nodup)) (h : MergedFrom A C) :
    merge A C = C := by
  rcases h with ⟨W, N, rfl, hW, hN, hNd⟩
  unfold merge
  rw [List.foldl_append]
  have h1 : List.foldl mergeOne A W = W := by
    have := foldl_dom hW [] (by simpa using hA)
    simpa using this
  rw [h1]
  apply foldl_new
  · intro n hn r hr
    rcases forall₂_dom_mem_right hW r hr with ⟨a, ha, hd⟩
    rw [hd.1]
    exact hN n hn a ha
  · exact hNd

/-- Re-upserting the identical row into a store that already received it
changes nothing: the second write finds the id present and rewrites every
matching row to the same value. -/
theorem upsert_upsert_self (store : List Flashcard) (c : Flashcard) :
    upsertRow (upsertRow store c) c = upsertRow store c := by
  by_cases h : ∃ r ∈ store, r.id = c.id
  · have h1 : upsertRow store c
        = store.map (fun r => if r.id = c.id then c else r) := by
      unfold upsertRow
      rw [if_pos ((any_id_iff store c.id).mpr h)]
    have h2 : ∃ r ∈ store.map (fun r => if r.id = c.id then c else r),
        r.id = c.id := by
      rcases h with ⟨r, hr, hid⟩
      exact ⟨c, List.mem_map.mpr ⟨r, hr, by rw [if_pos hid]⟩, rfl⟩
    rw [h1]
    unfold upsertRow
    rw [if_pos ((any_id_iff _ c.id).mpr h2), List.map_map]
    apply List.map_congr_left
    intro r _
    by_cases hid : r.id = c.id <;> simp [Function.comp, hid]
  · push_neg at h
    have h1 : upsertRow store c = store ++ [c] := by
      unfold upsertRow
      rw [if_neg]
      intro hc
      rcases (any_id_iff store c.id).mp hc with ⟨r, hr, hid⟩
      exact h r hr hid
    rw [h1]
    unfold upsertRow
    rw [if_pos ((any_id_iff _ c.id).mpr ⟨c, by simp, rfl⟩), List.map_append]
    congr 1
    · have hpt : ∀ r ∈ store, (if r.id = c.id then c else r) = r :=
        fun r hr => if_neg (h r hr)
      rw [List.map_congr_left hpt, List.map_id']
    · simp

/-- Claim C7: merge is idempotent.  For the spec's pure merge, merging the
merged result back against the same local set (whose identifiers are
distinct, A being a card set) reproduces it: merge(A, merge(A, B)) =
merge(A, B).  For the source's sync upsert, replaying the same updated
record onto a store that already applied it produces no further change. -/
theorem merge_sync_idempotent :
    (∀ A B : List Flashcard, ((A.map (fun r => r.id)).Nodup) →
       merge A (merge A B) = merge A B) ∧
    (∀ (u : String) (c : Flashcard) (store : List Flashcard),
       syncCards u [c] (syncCards u [c] store) = syncCards u [c] store) := by
  constructor
  · intro A B hA
    exact merge_absorb hA (mergedFrom_foldl B A (mergedFrom_self A))
  · intro u c store
    show upsertRow (upsertRow store (setUser u c)) (setUser u c)
      = upsertRow store (setUser u c)
    exact upsert_upsert_self _ _

/-- Instance of `merge_sync_idempotent` at a concrete one-card local set and
a concrete incoming batch. -/
theorem merge_sync_idempotent_inst :
    merge [testCard] (merge [testCard] [deviceACard])
      = merge [testCard] [deviceACard] :=
  merge_sync_idempotent.1 [testCard] [deviceACard] (by simp)
